import Mathlib

/-!
Verification of the build-time MASM compilation pipeline of the lending-protocol
repository (`client/build.rs`): error-constant extraction and registry
generation, library/note-script compilation ordering, skip behaviour of the
build entry point, artifact serialization, and directory enumeration.
-/

set_option maxRecDepth 10000

namespace LendingBuild

/-! ## Error extraction: the regex `const\.ERR_(?<name>.*)="(?<message>.*)"`

`extract_errors` in `build.rs` scans file text with the Rust regex
`const\.ERR_(?<name>.*)="(?<message>.*)"` via `captures_iter`.  We embed the
exact leftmost-first, greedy semantics of this one pattern over `List Char`:
`.` matches every character except a newline, `(?<name>.*)` is greedy and
backtracks to the last `="` of the line segment that still leaves a closing
quote, and `(?<message>.*)` greedily extends to the last `"` of the segment. -/

/-- The literal prefix `const.ERR_` of the pattern. -/
def litConstERR : List Char := ("const.ERR_").data

/-- Strips a literal prefix from a character list, or fails. -/
def dropPrefixLit : List Char → List Char → Option (List Char)
  | [], s => some s
  | _ :: _, [] => none
  | c :: cs, d :: ds => if c = d then dropPrefixLit cs ds else none

/-- Indices of `"` characters in the segment, ascending. -/
def quotePositions (S : List Char) : List Nat :=
  (List.range S.length).filter (fun i => S.getD i ' ' == '"')

/-- Indices `k` such that the segment has `=` at `k` immediately followed by
`"` at `k+1`, ascending. -/
def eqQuotePositions (S : List Char) : List Nat :=
  (List.range S.length).filter
    (fun i => (S.getD i ' ' == '=') && (S.getD (i + 1) ' ' == '"'))

/-- Matches `(?<name>.*)="(?<message>.*)"` against a newline-free segment `S`,
anchored at its start, with the greedy backtracking semantics of the Rust
regex crate: the name group ends at the last `="` that still leaves a closing
quote, and the message group ends at the last `"` of the segment.  Returns
the raw name group, the raw message group, and the number of characters of
`S` consumed by the whole match. -/
def segMatch (S : List Char) : Option (List Char × List Char × Nat) :=
  match (quotePositions S).getLast? with
  | none => none
  | some q =>
    match ((eqQuotePositions S).filter (fun k => decide (k + 2 ≤ q))).getLast? with
    | none => none
    | some k => some (S.take k, ((S.drop (k + 2)).take (q - (k + 2)), q + 1))

/-- One step of `captures_iter`: scan left to right; at each position try the
literal prefix and then the rest of the pattern on the remainder of the line;
on success emit the capture groups and resume after the match, otherwise
advance one character.  `fuel` only bounds the recursion and is always
sufficient when instantiated with the input length. -/
def scanCaptures : Nat → List Char → List (List Char × List Char)
  | 0, _ => []
  | _, [] => []
  | fuel + 1, c :: cs =>
    match dropPrefixLit litConstERR (c :: cs) with
    | some rest =>
      match segMatch (rest.takeWhile (fun ch => ch != '\n')) with
      | some (nm, msg, consumed) => (nm, msg) :: scanCaptures fuel (rest.drop consumed)
      | none => scanCaptures fuel cs
    | none => scanCaptures fuel cs

/-- All captures of the error-declaration regex in a file, in order, as raw
(untrimmed) `(name, message)` capture groups. -/
def extractCaptures (s : String) : List (String × String) :=
  (scanCaptures (s.data.length + 1) s.data).map (fun p => (String.mk p.1, String.mk p.2))

/-- Rust's `str::trim`: drop leading and trailing whitespace.  (The MASM
sources are ASCII; `Char.isWhitespace` covers the whitespace they contain.) -/
def trimList (l : List Char) : List Char :=
  ((l.dropWhile Char.isWhitespace).reverse.dropWhile Char.isWhitespace).reverse

/-- `str::trim` lifted to strings. -/
def trimStr (s : String) : String := String.mk (trimList s.data)

/-! ## The accumulating error map

`build.rs` accumulates extracted errors in a `BTreeMap<String, String>`: a
map keyed by name whose iteration order is ascending by key.  We embed it as
an association list kept strictly sorted by key. -/

/-- Lexicographic order on character lists by code point: the order
`Ord for String` gives the ASCII error names stored in the `BTreeMap`. -/
def charListLt : List Char → List Char → Bool
  | _, [] => false
  | [], _ :: _ => true
  | a :: as, b :: bs =>
    if a.toNat < b.toNat then true
    else if b.toNat < a.toNat then false
    else charListLt as bs

/-- The `BTreeMap` key order on strings. -/
def keyLt (a b : String) : Bool := charListLt a.data b.data

/-- `BTreeMap::get`: the value stored under a key, if any. -/
def lookupKey (k : String) : List (String × String) → Option String
  | [] => none
  | (k', v) :: rest => if k' = k then some v else lookupKey k rest

/-- `BTreeMap::insert`: order-preserving insertion, replacing an existing
binding of the same key. -/
def insertSorted (k v : String) : List (String × String) → List (String × String)
  | [] => [(k, v)]
  | (k', v') :: rest =>
    if keyLt k k' then (k, v) :: (k', v') :: rest
    else if k = k' then (k, v) :: rest
    else (k', v') :: insertSorted k v rest

/-- The exact message of the conflict error raised by `extract_errors`. -/
def conflictMsg (n : String) : String :=
  "Error constant ERR_" ++ n ++ " defined with different messages"

/-- The per-capture loop body of `extract_errors`: trim both capture groups,
fail if the name is already bound to a different message, insert otherwise. -/
def processCaptures :
    List (String × String) → List (String × String) → Except String (List (String × String))
  | errors, [] => Except.ok errors
  | errors, cap :: rest =>
    let name := trimStr cap.1
    let message := trimStr cap.2
    match lookupKey name errors with
    | some existing =>
      if existing ≠ message then Except.error (conflictMsg name)
      else processCaptures (insertSorted name message errors) rest
    | none => processCaptures (insertSorted name message errors) rest

/-- `extract_errors` of `build.rs`: extract every regex capture from one
file's contents and merge it into the accumulated error map. -/
def extract_errors (errors : List (String × String)) (file_contents : String) :
    Except String (List (String × String)) :=
  processCaptures errors (extractCaptures file_contents)

/-- The walk of `generate_error_constants` over the MASM files (their textual
contents, in traversal order), threading the accumulated error map. -/
def collectErrors :
    List (String × String) → List String → Except String (List (String × String))
  | errors, [] => Except.ok errors
  | errors, f :: fs =>
    match extract_errors errors f with
    | Except.error e => Except.error e
    | Except.ok errors' => collectErrors errors' fs

/-! ## Code generation (`generate_error_file`) -/

/-- The fixed text `generate_error_file` emits before the entries: a `use`
item, then the machine-generated header comment (each `writeln!` appends a
newline to its formatted text). -/
def errorFileHeader : String :=
  "use miden_lib::errors::MasmError;\n\n" ++
  "// This file is generated by build.rs, do not modify manually.\n" ++
  "// It extracts error constants from MASM files in the contracts directory.\n\n"

/-- The per-entry block: a doc comment holding the literal message, then a
public constant `ERR_<NAME>` bound to a `MasmError` wrapper over the message. -/
def errorBlock (p : String × String) : String :=
  "/// Error Message: \"" ++ p.2 ++ "\"\n" ++
  "pub const ERR_" ++ p.1 ++ ": MasmError = MasmError::from_static_str(\"" ++ p.2 ++ "\");\n"

/-- `generate_error_file` of `build.rs`: header followed by one block per
entry, in the map's (ascending-by-name) iteration order. -/
def generate_error_file (errors : List (String × String)) : String :=
  errorFileHeader ++ String.join (errors.map errorBlock)

/-- `generate_error_constants` of `build.rs`, as a function from the walked
MASM file contents to the text written to `src/errors/lending_errors.rs`.
`Except.error` models the early `?`-return on a conflict, which aborts the
build before `fs::write` is reached, so no file is written or overwritten. -/
def generate_error_constants (files : List String) : Except String String :=
  match collectErrors [] files with
  | Except.error e => Except.error e
  | Except.ok errors => Except.ok (generate_error_file errors)

/-! ## Derived views used by the specifications -/

/-- Trims both components of a captured pair, as the loop body does. -/
def trim2 (p : String × String) : String × String := (trimStr p.1, trimStr p.2)

/-- The trimmed error declarations contributed by one file. -/
def trimmedDecls (f : String) : List (String × String) :=
  (extractCaptures f).map trim2

/-- All trimmed error declarations of a list of files, in scan order. -/
def declsOfFiles (files : List String) : List (String × String) :=
  (files.map trimmedDecls).flatten

/-- The error map invariant: keys strictly ascending. -/
def SortedKeys (l : List (String × String)) : Prop :=
  l.Pairwise (fun a b => keyLt a.1 b.1 = true)

/-- Every two declarations sharing a name carry the same message. -/
def ConsistentIn (l : List (String × String)) : Prop :=
  ∀ p ∈ l, ∀ q ∈ l, p.1 = q.1 → p.2 = q.2

/-- Two declarations share a name but differ in message. -/
def ConflictIn (l : List (String × String)) : Prop :=
  ∃ p ∈ l, ∃ q ∈ l, p.1 = q.1 ∧ p.2 ≠ q.2

/-! ## Library and note-script compilation (`compile_contracts`, `compile_note_scripts`)

A source unit is one `.masm` file of the enumerated directory.  The assembler
itself (`TransactionKernel::assembler()` and `miden_assembly`) is an external
toolchain, so a unit is abstracted by whether it parses and by the set of
library namespaces it references. -/

structure MasmUnit where
  name : String
  parses : Bool
  refs : List String

/-- The namespaced path `lending::<name>` under which `compile_contracts`
registers a compiled library. -/
def lendingPath (n : String) : String := "lending::" ++ n

/-- Modelled from the spec: parsing and assembly of one unit are performed by
the external assembler toolchain (`create_library` / `assemble_program` call
into `miden_assembly`, which is not part of this repository).  Per the spec,
a unit assembles exactly when it parses and every library it references is
already registered in the assembler context; the failure diagnostic names the
offending unit and the underlying cause. -/
def assembleUnit (registered : List String) (u : MasmUnit) : Except String Unit :=
  if u.parses = false then
    Except.error ("failed to parse library module " ++ lendingPath u.name)
  else if u.refs.all (fun r => registered.contains r) then Except.ok ()
  else Except.error ("undefined module reference in " ++ lendingPath u.name)

/-- Outcome of the `compile_contracts` loop: the diagnostic of the first
failure (if any), the final registered-library list of the assembler context,
and the artifact files written, in order. -/
structure ContractsResult where
  err : Option String
  registered : List String
  artifacts : List String

/-- `compile_contracts` of `build.rs`: for each unit in enumeration order,
assemble it against the current context, register the resulting library into
the context, and write its `.masl` artifact; a failure aborts the loop via
`?` with nothing further written or registered. -/
def compile_contracts (registered artifacts : List String) :
    List MasmUnit → ContractsResult
  | [] => { err := none, registered := registered, artifacts := artifacts }
  | u :: rest =>
    match assembleUnit registered u with
    | Except.error e => { err := some e, registered := registered, artifacts := artifacts }
    | Except.ok _ =>
      compile_contracts (registered ++ [lendingPath u.name])
        (artifacts ++ [u.name ++ ".masl"]) rest

/-- The namespaced paths a list of units registers, in order. -/
def unitPaths (units : List MasmUnit) : List String :=
  units.map (fun u => lendingPath u.name)

/-- The `.masl` artifact file names a list of units produces, in order. -/
def unitArtifacts (units : List MasmUnit) : List String :=
  units.map (fun u => u.name ++ ".masl")

/-- Outcome of the `compile_note_scripts` loop. -/
structure NoteScriptsResult where
  err : Option String
  artifacts : List String

/-- `compile_note_scripts` of `build.rs`: each note script is assembled
against the fixed assembler handed over from library compilation (the
context is no longer extended), and its `.masb` artifact written. -/
def compile_note_scripts (registered artifacts : List String) :
    List MasmUnit → NoteScriptsResult
  | [] => { err := none, artifacts := artifacts }
  | u :: rest =>
    match assembleUnit registered u with
    | Except.error e => { err := some e, artifacts := artifacts }
    | Except.ok _ => compile_note_scripts registered (artifacts ++ [u.name ++ ".masb"]) rest

/-! ## The build entry point (`main`) -/

/-- The inputs `main` draws from the environment: which directories exist
under the copied ASM root, the base toolchain namespaces, the library units
and note-script units enumerated from the two subdirectories, and the file
texts the recursive error-registry walk of the contracts tree visits. -/
structure BuildWorld where
  srcExists : Bool
  contractsExist : Bool
  noteScriptsExist : Bool
  base : List String
  contractUnits : List MasmUnit
  contractFileTexts : List String
  noteScriptUnits : List MasmUnit

/-- Observable outcome of one build: whether it failed, the artifact files
written by each compiler, and the generated error-registry text, if written. -/
structure BuildResult where
  failed : Bool
  libraryArtifacts : List String
  programArtifacts : List String
  errorRegistry : Option String

/-- `CAN_WRITE_TO_SRC = option_env!("DOCS_RS").is_none()`: in a regular build
(outside docs.rs) the environment variable is unset, so the constant is true. -/
def CAN_WRITE_TO_SRC : Bool := true

/-- `main` of `build.rs`: skip everything when the ASM root is missing;
compile contracts when their directory exists, and only then — nested inside
that branch — compile note scripts when their directory exists; finally
generate the error registry when the contracts directory exists and writing
to the source tree is allowed.  Any stage failure propagates via `?` and
fails the build, skipping the remaining stages. -/
def mainBuild (w : BuildWorld) : BuildResult :=
  if w.srcExists = false then
    { failed := false, libraryArtifacts := [], programArtifacts := [], errorRegistry := none }
  else if w.contractsExist = false then
    { failed := false, libraryArtifacts := [], programArtifacts := [], errorRegistry := none }
  else
    let r := compile_contracts w.base [] w.contractUnits
    match r.err with
    | some _ =>
      { failed := true, libraryArtifacts := r.artifacts, programArtifacts := [],
        errorRegistry := none }
    | none =>
      let nr :=
        if w.noteScriptsExist then compile_note_scripts r.registered [] w.noteScriptUnits
        else { err := none, artifacts := [] }
      match nr.err with
      | some _ =>
        { failed := true, libraryArtifacts := r.artifacts, programArtifacts := nr.artifacts,
          errorRegistry := none }
      | none =>
        if CAN_WRITE_TO_SRC then
          match generate_error_constants w.contractFileTexts with
          | Except.error _ =>
            { failed := true, libraryArtifacts := r.artifacts,
              programArtifacts := nr.artifacts, errorRegistry := none }
          | Except.ok content =>
            { failed := false, libraryArtifacts := r.artifacts,
              programArtifacts := nr.artifacts, errorRegistry := some content }
        else
          { failed := false, libraryArtifacts := r.artifacts,
            programArtifacts := nr.artifacts, errorRegistry := none }

/-! ## Directory enumeration (`get_masm_files` vs the recursive walk)

A directory is a list of entries, each a regular file (with contents) or a
subdirectory.  `get_masm_files` reads one directory level (`fs::read_dir`),
while `generate_error_constants` walks the whole tree (`WalkDir`).  Directory
names are assumed not to carry the `.masm` extension (reading such an entry
as a file would abort the build in the original). -/

inductive FsTree where
  | file (name : String) (contents : String)
  | dir (name : String) (entries : List FsTree)

/-- Splits a file name at every dot (the analogue of iterating
`Path::extension` structure on the final component). -/
def splitOnDot : List Char → List (List Char)
  | [] => [[]]
  | c :: cs =>
    let rest := splitOnDot cs
    if c = '.' then [] :: rest
    else
      match rest with
      | [] => [[c]]
      | r :: rs => (c :: r) :: rs

/-- `Path::extension` on a file name: the part after the last dot, except
that a name with no dot, or a leading-dot name with no further dot, has no
extension. -/
def extensionOf (name : String) : Option String :=
  match splitOnDot name.data with
  | [] => none
  | [_] => none
  | [] :: [_] => none
  | parts => parts.getLast?.map String.mk

/-- ASCII lowercasing of a name, as `str::to_lowercase` acts on these names. -/
def lowerName (s : String) : String := String.mk (s.data.map Char.toLower)

/-- `is_masm_file` of `build.rs`: the lowercased extension is `masm`. -/
def is_masm_file (name : String) : Bool :=
  match extensionOf name with
  | some ext => lowerName ext == "masm"
  | none => false

/-- `get_masm_files` of `build.rs`: the MASM files among the *direct* entries
of one directory — `fs::read_dir` does not recurse. -/
def get_masm_files (entries : List FsTree) : List (String × String) :=
  entries.filterMap fun t =>
    match t with
    | FsTree.file n c => if is_masm_file n then some (n, c) else none
    | FsTree.dir _ _ => none

mutual

/-- The `WalkDir` traversal of `generate_error_constants`: the contents of
every MASM file in the tree, to any depth, in depth-first order. -/
def walkMasmTexts : FsTree → List String
  | FsTree.file n c => if is_masm_file n then [c] else []
  | FsTree.dir _ entries => walkMasmTextsList entries

/-- Traversal of a list of sibling entries. -/
def walkMasmTextsList : List FsTree → List String
  | [] => []
  | t :: ts => walkMasmTexts t ++ walkMasmTextsList ts

end

/-! ## Artifact serialization

Modelled from the spec: the binary serialization of library and program
artifacts is implemented by the external assembler toolchain
(`Serializable::to_bytes` / `write_to_file` of `miden_objects`), absent from
this repository.  The spec's data model gives an artifact a name, a
namespaced path and a binary payload, and requires the serialized form to
deserialize byte-for-byte into the same logical artifact; we realize this
contract with a length-prefixed encoding. -/

inductive ArtifactKind where
  | library
  | program

/-- A compiled artifact's logical content: its kind (library `.masl` or
program `.masb`), name, namespaced path, and source text it was built from. -/
structure Artifact where
  kind : ArtifactKind
  name : String
  path : String
  code : String

/-- Length-prefixed string encoding. -/
def encodeString (s : String) : List Nat :=
  s.data.length :: s.data.map Char.toNat

/-- Reads back one length-prefixed string, returning it with the remaining
bytes. -/
def decodeString : List Nat → Option (String × List Nat)
  | [] => none
  | n :: rest =>
    if n ≤ rest.length then
      some (String.mk ((rest.take n).map (fun b => Char.ofNat b)), rest.drop n)
    else none

/-- Kind tag byte. -/
def encodeKind : ArtifactKind → Nat
  | ArtifactKind.library => 0
  | ArtifactKind.program => 1

/-- Reads back a kind tag. -/
def decodeKind (n : Nat) : Option ArtifactKind :=
  if n = 0 then some ArtifactKind.library
  else if n = 1 then some ArtifactKind.program
  else none

/-- Modelled from the spec: serialization of a compiled artifact to bytes. -/
def serializeArtifact (a : Artifact) : List Nat :=
  encodeKind a.kind :: (encodeString a.name ++ encodeString a.path ++ encodeString a.code)

/-- Modelled from the spec: deserialization of an artifact binary, requiring
the whole input to be consumed. -/
def deserializeArtifact (bytes : List Nat) : Option Artifact :=
  match bytes with
  | [] => none
  | k :: rest =>
    match decodeKind k with
    | none => none
    | some kind =>
      match decodeString rest with
      | none => none
      | some (name, rest₁) =>
        match decodeString rest₁ with
        | none => none
        | some (path, rest₂) =>
          match decodeString rest₂ with
          | none => none
          | some (code, rest₃) =>
            if rest₃ = [] then
              some { kind := kind, name := name, path := path, code := code }
            else none

/-! ## Order facts for the key comparison -/

theorem char_toNat_inj {a b : Char} (h : a.toNat = b.toNat) : a = b :=
  Char.eq_of_val_eq (UInt32.ext h)

theorem charListLt_irrefl : ∀ l, charListLt l l = false
  | [] => rfl
  | a :: as => by
    simp only [charListLt, if_neg (lt_irrefl a.toNat)]
    exact charListLt_irrefl as

theorem charListLt_trans : ∀ {a b c : List Char},
    charListLt a b = true → charListLt b c = true → charListLt a c = true := by
  intro a
  induction a with
  | nil =>
    intro b c hab hbc
    cases c with
    | nil =>
      cases b with
      | nil => exact hab
      | cons y bs => simp [charListLt] at hbc
    | cons z cs => rfl
  | cons x as ih =>
    intro b c hab hbc
    cases b with
    | nil => simp [charListLt] at hab
    | cons y bs =>
      cases c with
      | nil => simp [charListLt] at hbc
      | cons z cs =>
        simp only [charListLt] at hab hbc ⊢
        by_cases hxy : x.toNat < y.toNat
        · by_cases hyz : y.toNat < z.toNat
          · rw [if_pos (lt_trans hxy hyz)]
          · have hzy : ¬ z.toNat < y.toNat := by
              intro hzy
              rw [if_neg hyz, if_pos hzy] at hbc
              cases hbc
            rw [if_pos (show x.toNat < z.toNat by omega)]
        · by_cases hyx : y.toNat < x.toNat
          · rw [if_neg hxy, if_pos hyx] at hab
            cases hab
          · rw [if_neg hxy, if_neg hyx] at hab
            by_cases hyz : y.toNat < z.toNat
            · rw [if_pos (show x.toNat < z.toNat by omega)]
            · by_cases hzy : z.toNat < y.toNat
              · rw [if_neg hyz, if_pos hzy] at hbc
                cases hbc
              · rw [if_neg hyz, if_neg hzy] at hbc
                rw [if_neg (show ¬ x.toNat < z.toNat by omega),
                  if_neg (show ¬ z.toNat < x.toNat by omega)]
                exact ih hab hbc

theorem charListLt_connex : ∀ {a b : List Char},
    charListLt a b = false → charListLt b a = false → a = b := by
  intro a
  induction a with
  | nil =>
    intro b hab _
    cases b with
    | nil => rfl
    | cons y bs => simp [charListLt] at hab
  | cons x as ih =>
    intro b hab hba
    cases b with
    | nil => simp [charListLt] at hba
    | cons y bs =>
      simp only [charListLt] at hab hba
      by_cases hxy : x.toNat < y.toNat
      · rw [if_pos hxy] at hab; cases hab
      · by_cases hyx : y.toNat < x.toNat
        · rw [if_pos hyx] at hba; cases hba
        · rw [if_neg hxy, if_neg hyx] at hab
          rw [if_neg hyx, if_neg hxy] at hba
          rw [char_toNat_inj (show x.toNat = y.toNat by omega), ih hab hba]

theorem keyLt_irrefl (a : String) : keyLt a a = false := charListLt_irrefl a.data

theorem keyLt_irrefl_elim {a : String} (h : keyLt a a = true) : False := by
  rw [keyLt_irrefl a] at h
  cases h

theorem keyLt_trans {a b c : String} (hab : keyLt a b = true)
    (hbc : keyLt b c = true) : keyLt a c = true := charListLt_trans hab hbc

theorem string_data_inj {a b : String} (h : a.data = b.data) : a = b :=
  congrArg String.mk h

theorem keyLt_connex {a b : String} (hab : keyLt a b = false)
    (hba : keyLt b a = false) : a = b :=
  string_data_inj (charListLt_connex hab hba)

theorem keyLt_of_not_of_ne {a b : String} (h₁ : ¬ keyLt a b = true) (h₂ : a ≠ b) :
    keyLt b a = true := by
  have ha : keyLt a b = false := by
    revert h₁
    cases keyLt a b <;> simp
  by_cases hb : keyLt b a = true
  · exact hb
  · have hbf : keyLt b a = false := by
      revert hb
      cases keyLt b a <;> simp
    exact absurd (keyLt_connex ha hbf) h₂

/-! ## Lemmas about the sorted error map -/

theorem lookupKey_some_mem {k v : String} {l : List (String × String)}
    (h : lookupKey k l = some v) : (k, v) ∈ l := by
  induction l with
  | nil => simp [lookupKey] at h
  | cons p rest ih =>
    obtain ⟨k', v'⟩ := p
    by_cases hk : k' = k
    · subst hk
      simp [lookupKey] at h
      simp [h]
    · simp [lookupKey, hk] at h
      exact List.mem_cons_of_mem _ (ih h)

theorem lookupKey_none_not_mem {k v : String} {l : List (String × String)}
    (h : lookupKey k l = none) : (k, v) ∉ l := by
  induction l with
  | nil => simp
  | cons p rest ih =>
    obtain ⟨k', v'⟩ := p
    by_cases hk : k' = k
    · subst hk; simp [lookupKey] at h
    · simp [lookupKey, hk] at h
      intro hmem
      rcases List.mem_cons.mp hmem with heq | hmem'
      · exact hk (congrArg Prod.fst heq).symm
      · exact ih h hmem'

theorem sortedKeys_unique {l : List (String × String)} (hs : SortedKeys l)
    {k v₁ v₂ : String} (h₁ : (k, v₁) ∈ l) (h₂ : (k, v₂) ∈ l) : v₁ = v₂ := by
  induction l with
  | nil => simp at h₁
  | cons p rest ih =>
    rcases List.pairwise_cons.mp hs with ⟨hhead, htail⟩
    rcases List.mem_cons.mp h₁ with he₁ | hm₁ <;> rcases List.mem_cons.mp h₂ with he₂ | hm₂
    · exact congrArg Prod.snd (he₁.trans he₂.symm)
    · exfalso
      have := hhead _ hm₂
      rw [← he₁] at this
      exact keyLt_irrefl_elim this
    · exfalso
      have := hhead _ hm₁
      rw [← he₂] at this
      exact keyLt_irrefl_elim this
    · exact ih htail hm₁ hm₂

theorem insertSorted_subset {k v : String} {l : List (String × String)}
    {p : String × String} (h : p ∈ insertSorted k v l) : p = (k, v) ∨ p ∈ l := by
  induction l with
  | nil => simpa [insertSorted] using h
  | cons q rest ih =>
    obtain ⟨k', v'⟩ := q
    by_cases hlt : keyLt k k' = true
    · simp only [insertSorted, if_pos hlt] at h
      rcases List.mem_cons.mp h with he | hm
      · exact Or.inl he
      · exact Or.inr hm
    · by_cases heq : k = k'
      · simp only [insertSorted, if_neg hlt, if_pos heq] at h
        rcases List.mem_cons.mp h with he | hm
        · exact Or.inl he
        · exact Or.inr (List.mem_cons_of_mem _ hm)
      · simp only [insertSorted, if_neg hlt, if_neg heq] at h
        rcases List.mem_cons.mp h with he | hm
        · exact Or.inr (he ▸ List.mem_cons_self _ _)
        · rcases ih hm with h' | h'
          · exact Or.inl h'
          · exact Or.inr (List.mem_cons_of_mem _ h')

theorem mem_insertSorted_self (k v : String) (l : List (String × String)) :
    (k, v) ∈ insertSorted k v l := by
  induction l with
  | nil => simp [insertSorted]
  | cons q rest ih =>
    obtain ⟨k', v'⟩ := q
    by_cases hlt : keyLt k k' = true
    · simp only [insertSorted, if_pos hlt]
      exact List.mem_cons_self _ _
    · by_cases heq : k = k'
      · simp only [insertSorted, if_neg hlt, if_pos heq]
        exact List.mem_cons_self _ _
      · simp only [insertSorted, if_neg hlt, if_neg heq]
        exact List.mem_cons_of_mem _ ih

theorem mem_insertSorted_of_mem {k v : String} {l : List (String × String)}
    {p : String × String} (hp : p ∈ l) (hne : p.1 ≠ k) :
    p ∈ insertSorted k v l := by
  induction l with
  | nil => simp at hp
  | cons q rest ih =>
    obtain ⟨k', v'⟩ := q
    by_cases hlt : keyLt k k' = true
    · simp only [insertSorted, if_pos hlt]
      exact List.mem_cons_of_mem _ hp
    · by_cases heq : k = k'
      · simp only [insertSorted, if_neg hlt, if_pos heq]
        rcases List.mem_cons.mp hp with he | hm
        · exfalso; apply hne; rw [he, heq]
        · exact List.mem_cons_of_mem _ hm
      · simp only [insertSorted, if_neg hlt, if_neg heq]
        rcases List.mem_cons.mp hp with he | hm
        · exact he ▸ List.mem_cons_self _ _
        · exact List.mem_cons_of_mem _ (ih hm)

theorem insertSorted_sortedKeys {l : List (String × String)} (hs : SortedKeys l)
    (k v : String) : SortedKeys (insertSorted k v l) := by
  induction l with
  | nil => simp [insertSorted, SortedKeys]
  | cons q rest ih =>
    obtain ⟨k', v'⟩ := q
    rcases List.pairwise_cons.mp hs with ⟨hhead, htail⟩
    by_cases hlt : keyLt k k' = true
    · simp only [insertSorted, if_pos hlt]
      refine List.pairwise_cons.mpr ⟨?_, hs⟩
      intro q hq
      rcases List.mem_cons.mp hq with he | hm
      · rw [he]; exact hlt
      · exact keyLt_trans hlt (hhead _ hm)
    · by_cases heq : k = k'
      · simp only [insertSorted, if_neg hlt, if_pos heq]
        refine List.pairwise_cons.mpr ⟨?_, htail⟩
        intro q hq
        rw [heq]
        exact hhead _ hq
      · simp only [insertSorted, if_neg hlt, if_neg heq]
        refine List.pairwise_cons.mpr ⟨?_, ih htail⟩
        intro q hq
        have hk'k : keyLt k' k = true := keyLt_of_not_of_ne hlt heq
        rcases insertSorted_subset hq with he | hm
        · rw [he]; exact hk'k
        · exact hhead _ hm

/-! ## Lemmas about the extraction loop -/

theorem mem_insertSorted_iff_of_lookup_some {acc : List (String × String)}
    (hs : SortedKeys acc) {k v : String} (hl : lookupKey k acc = some v) :
    ∀ p, p ∈ insertSorted k v acc ↔ p ∈ acc := by
  intro p
  constructor
  · intro hp
    rcases insertSorted_subset hp with he | hm
    · exact he ▸ lookupKey_some_mem hl
    · exact hm
  · intro hp
    by_cases hpk : p.1 = k
    · have hpair : (k, p.2) ∈ acc := by
        have : p = (k, p.2) := Prod.ext hpk rfl
        exact this ▸ hp
      have : p.2 = v := sortedKeys_unique hs hpair (lookupKey_some_mem hl)
      have hpv : p = (k, v) := Prod.ext hpk this
      exact hpv ▸ mem_insertSorted_self k v acc
    · exact mem_insertSorted_of_mem hp hpk

theorem mem_insertSorted_iff_of_lookup_none {acc : List (String × String)}
    {k : String} (hl : lookupKey k acc = none) (v : String) :
    ∀ p, p ∈ insertSorted k v acc ↔ p = (k, v) ∨ p ∈ acc := by
  intro p
  constructor
  · exact insertSorted_subset
  · intro hp
    rcases hp with he | hm
    · exact he ▸ mem_insertSorted_self k v acc
    · by_cases hpk : p.1 = k
      · exfalso
        have : p = (k, p.2) := Prod.ext hpk rfl
        exact lookupKey_none_not_mem hl (this ▸ hm)
      · exact mem_insertSorted_of_mem hm hpk

theorem processCaptures_ok_mem {caps : List (String × String)} :
    ∀ {acc res : List (String × String)}, SortedKeys acc →
      processCaptures acc caps = Except.ok res →
      SortedKeys res ∧ ∀ p, p ∈ res ↔ (p ∈ acc ∨ p ∈ caps.map trim2) := by
  induction caps with
  | nil =>
    intro acc res hs h
    simp only [processCaptures, Except.ok.injEq] at h
    subst h
    exact ⟨hs, by simp⟩
  | cons cap rest ih =>
    intro acc res hs h
    simp only [processCaptures] at h
    cases hl : lookupKey (trimStr cap.1) acc with
    | some existing =>
      rw [hl] at h
      dsimp only at h
      by_cases hne : existing ≠ trimStr cap.2
      · rw [if_pos hne] at h
        cases h
      · rw [if_neg hne] at h
        push_neg at hne
        subst hne
        have hs' := insertSorted_sortedKeys hs (trimStr cap.1) (trimStr cap.2)
        obtain ⟨hres, hmem⟩ := ih hs' h
        have hmemcap : trim2 cap ∈ acc := by
          simpa [trim2] using lookupKey_some_mem hl
        refine ⟨hres, fun p => ?_⟩
        rw [hmem p, mem_insertSorted_iff_of_lookup_some hs hl p]
        simp only [List.map_cons, List.mem_cons]
        constructor
        · rintro (hp | hp)
          · exact Or.inl hp
          · exact Or.inr (Or.inr hp)
        · rintro (hp | hp | hp)
          · exact Or.inl hp
          · exact Or.inl (hp ▸ hmemcap)
          · exact Or.inr hp
    | none =>
      rw [hl] at h
      dsimp only at h
      have hs' := insertSorted_sortedKeys hs (trimStr cap.1) (trimStr cap.2)
      obtain ⟨hres, hmem⟩ := ih hs' h
      refine ⟨hres, fun p => ?_⟩
      rw [hmem p, mem_insertSorted_iff_of_lookup_none hl (trimStr cap.2) p]
      simp only [List.map_cons, List.mem_cons, trim2]
      tauto

theorem processCaptures_consistent_ok (D : List (String × String))
    (hD : ConsistentIn D) {caps : List (String × String)} :
    ∀ {acc : List (String × String)}, SortedKeys acc →
      (∀ p ∈ acc, p ∈ D) → (∀ p ∈ caps.map trim2, p ∈ D) →
      ∃ res, processCaptures acc caps = Except.ok res := by
  induction caps with
  | nil => intro acc _ _ _; exact ⟨acc, rfl⟩
  | cons cap rest ih =>
    intro acc hs hacc hcaps
    have hcapD : trim2 cap ∈ D := hcaps _ (by simp)
    have hrestD : ∀ p ∈ rest.map trim2, p ∈ D := by
      intro p hp
      exact hcaps p (by simp [hp])
    cases hl : lookupKey (trimStr cap.1) acc with
    | some existing =>
      have hexD : (trimStr cap.1, existing) ∈ D := hacc _ (lookupKey_some_mem hl)
      have heq : existing = trimStr cap.2 := hD _ hexD _ hcapD rfl
      have hsub : ∀ p ∈ insertSorted (trimStr cap.1) (trimStr cap.2) acc, p ∈ D := by
        intro p hp
        rcases insertSorted_subset hp with he | hm
        · exact he ▸ hcapD
        · exact hacc _ hm
      obtain ⟨res, hres⟩ :=
        ih (insertSorted_sortedKeys hs (trimStr cap.1) (trimStr cap.2)) hsub hrestD
      refine ⟨res, ?_⟩
      simp only [processCaptures, hl, heq, if_neg (by simp : ¬(trimStr cap.2 ≠ trimStr cap.2))]
      exact hres
    | none =>
      have hsub : ∀ p ∈ insertSorted (trimStr cap.1) (trimStr cap.2) acc, p ∈ D := by
        intro p hp
        rcases insertSorted_subset hp with he | hm
        · exact he ▸ hcapD
        · exact hacc _ hm
      obtain ⟨res, hres⟩ :=
        ih (insertSorted_sortedKeys hs (trimStr cap.1) (trimStr cap.2)) hsub hrestD
      refine ⟨res, ?_⟩
      simp only [processCaptures, hl]
      exact hres

theorem processCaptures_error_shape {caps : List (String × String)} :
    ∀ {acc : List (String × String)} {e : String},
      processCaptures acc caps = Except.error e →
      ∃ n m₁ m₂, m₁ ≠ m₂ ∧ e = conflictMsg n ∧
        ((n, m₁) ∈ acc ∨ (n, m₁) ∈ caps.map trim2) ∧ (n, m₂) ∈ caps.map trim2 := by
  induction caps with
  | nil => intro acc e h; cases h
  | cons cap rest ih =>
    intro acc e h
    simp only [processCaptures] at h
    cases hl : lookupKey (trimStr cap.1) acc with
    | some existing =>
      rw [hl] at h
      dsimp only at h
      by_cases hne : existing ≠ trimStr cap.2
      · rw [if_pos hne] at h
        cases h
        refine ⟨trimStr cap.1, existing, trimStr cap.2, hne, rfl, ?_, ?_⟩
        · exact Or.inl (lookupKey_some_mem hl)
        · simp [trim2]
      · rw [if_neg hne] at h
        obtain ⟨n, m₁, m₂, hne', he, hm₁, hm₂⟩ := ih h
        refine ⟨n, m₁, m₂, hne', he, ?_, by simp [hm₂]⟩
        rcases hm₁ with hm | hm
        · rcases insertSorted_subset hm with heq | hacc'
          · exact Or.inr (by simp [trim2, ← heq])
          · exact Or.inl hacc'
        · exact Or.inr (by simp [hm])
    | none =>
      rw [hl] at h
      dsimp only at h
      obtain ⟨n, m₁, m₂, hne', he, hm₁, hm₂⟩ := ih h
      refine ⟨n, m₁, m₂, hne', he, ?_, by simp [hm₂]⟩
      rcases hm₁ with hm | hm
      · rcases insertSorted_subset hm with heq | hacc'
        · exact Or.inr (by simp [trim2, ← heq])
        · exact Or.inl hacc'
      · exact Or.inr (by simp [hm])

/-! ## Lemmas about the multi-file walk -/

theorem collectErrors_ok_mem {files : List String} :
    ∀ {acc res : List (String × String)}, SortedKeys acc →
      collectErrors acc files = Except.ok res →
      SortedKeys res ∧ ∀ p, p ∈ res ↔ (p ∈ acc ∨ p ∈ declsOfFiles files) := by
  induction files with
  | nil =>
    intro acc res hs h
    simp only [collectErrors, Except.ok.injEq] at h
    subst h
    exact ⟨hs, by simp [declsOfFiles]⟩
  | cons f fs ih =>
    intro acc res hs h
    simp only [collectErrors] at h
    cases hf : extract_errors acc f with
    | error e => rw [hf] at h; cases h
    | ok acc' =>
      rw [hf] at h
      obtain ⟨hs', hmem'⟩ := processCaptures_ok_mem hs hf
      obtain ⟨hres, hmem⟩ := ih hs' h
      refine ⟨hres, fun p => ?_⟩
      rw [hmem p, hmem' p]
      simp only [declsOfFiles, trimmedDecls, List.map_cons, List.flatten_cons,
        List.mem_append]
      constructor
      · rintro ((hp | hp) | hp)
        · exact Or.inl hp
        · exact Or.inr (Or.inl hp)
        · exact Or.inr (Or.inr (by simpa [declsOfFiles, trimmedDecls] using hp))
      · rintro (hp | hp | hp)
        · exact Or.inl (Or.inl hp)
        · exact Or.inl (Or.inr hp)
        · exact Or.inr (by simpa [declsOfFiles, trimmedDecls] using hp)

theorem collectErrors_consistent_ok (D : List (String × String))
    (hD : ConsistentIn D) {files : List String} :
    ∀ {acc : List (String × String)}, SortedKeys acc →
      (∀ p ∈ acc, p ∈ D) → (∀ p ∈ declsOfFiles files, p ∈ D) →
      ∃ res, collectErrors acc files = Except.ok res := by
  induction files with
  | nil => intro acc _ _ _; exact ⟨acc, rfl⟩
  | cons f fs ih =>
    intro acc hs hacc hfiles
    have hcapD : ∀ p ∈ (extractCaptures f).map trim2, p ∈ D := by
      intro p hp
      apply hfiles
      simp only [declsOfFiles, trimmedDecls, List.map_cons, List.flatten_cons,
        List.mem_append]
      exact Or.inl hp
    obtain ⟨acc', hacc'⟩ := processCaptures_consistent_ok D hD hs hacc hcapD
    obtain ⟨hs', hmem'⟩ := processCaptures_ok_mem hs hacc'
    have haccD' : ∀ p ∈ acc', p ∈ D := by
      intro p hp
      rcases (hmem' p).mp hp with h' | h'
      · exact hacc _ h'
      · exact hcapD _ h'
    have hfsD : ∀ p ∈ declsOfFiles fs, p ∈ D := by
      intro p hp
      apply hfiles
      simp only [declsOfFiles, trimmedDecls, List.map_cons, List.flatten_cons,
        List.mem_append]
      exact Or.inr (by simpa [declsOfFiles, trimmedDecls] using hp)
    obtain ⟨res, hres⟩ := ih hs' haccD' hfsD
    refine ⟨res, ?_⟩
    simp only [collectErrors, extract_errors] at hacc' ⊢
    rw [hacc']
    exact hres

theorem collectErrors_error_shape {files : List String} :
    ∀ {acc : List (String × String)} {e : String}, SortedKeys acc →
      collectErrors acc files = Except.error e →
      ∃ n m₁ m₂, m₁ ≠ m₂ ∧ e = conflictMsg n ∧
        ((n, m₁) ∈ acc ∨ (n, m₁) ∈ declsOfFiles files) ∧
        (n, m₂) ∈ declsOfFiles files := by
  induction files with
  | nil => intro acc e _ h; cases h
  | cons f fs ih =>
    intro acc e hs h
    simp only [collectErrors] at h
    cases hf : extract_errors acc f with
    | error e' =>
      rw [hf] at h
      cases h
      obtain ⟨n, m₁, m₂, hne, he, hm₁, hm₂⟩ := processCaptures_error_shape hf
      refine ⟨n, m₁, m₂, hne, he, ?_, ?_⟩
      · rcases hm₁ with hm | hm
        · exact Or.inl hm
        · refine Or.inr ?_
          simp only [declsOfFiles, trimmedDecls, List.map_cons, List.flatten_cons,
            List.mem_append]
          exact Or.inl hm
      · simp only [declsOfFiles, trimmedDecls, List.map_cons, List.flatten_cons,
          List.mem_append]
        exact Or.inl hm₂
    | ok acc' =>
      rw [hf] at h
      obtain ⟨hs', hmem'⟩ := processCaptures_ok_mem hs hf
      obtain ⟨n, m₁, m₂, hne, he, hm₁, hm₂⟩ := ih hs' h
      have hlift : ∀ q : String × String, q ∈ declsOfFiles fs → q ∈ declsOfFiles (f :: fs) := by
        intro q hq
        simp only [declsOfFiles, trimmedDecls, List.map_cons, List.flatten_cons,
          List.mem_append]
        exact Or.inr (by simpa [declsOfFiles, trimmedDecls] using hq)
      refine ⟨n, m₁, m₂, hne, he, ?_, hlift _ hm₂⟩
      rcases hm₁ with hm | hm
      · rcases (hmem' _).mp hm with h' | h'
        · exact Or.inl h'
        · refine Or.inr ?_
          simp only [declsOfFiles, trimmedDecls, List.map_cons, List.flatten_cons,
            List.mem_append]
          exact Or.inl h'
      · exact Or.inr (hlift _ hm)

/-! ## Canonical form of sorted maps -/

theorem sortedKeys_ext :
    ∀ {l₁ l₂ : List (String × String)}, SortedKeys l₁ → SortedKeys l₂ →
      (∀ p, p ∈ l₁ ↔ p ∈ l₂) → l₁ = l₂ := by
  intro l₁
  induction l₁ with
  | nil =>
    intro l₂ _ _ hiff
    cases l₂ with
    | nil => rfl
    | cons q t₂ => exact absurd ((hiff q).mpr (List.mem_cons_self _ _)) (by simp)
  | cons p t₁ ih =>
    intro l₂ hs₁ hs₂ hiff
    cases l₂ with
    | nil => exact absurd ((hiff p).mp (List.mem_cons_self _ _)) (by simp)
    | cons q t₂ =>
      rcases List.pairwise_cons.mp hs₁ with ⟨hhead₁, htail₁⟩
      rcases List.pairwise_cons.mp hs₂ with ⟨hhead₂, htail₂⟩
      have hpq : p = q := by
        rcases List.mem_cons.mp ((hiff p).mp (List.mem_cons_self _ _)) with he | hm
        · exact he
        · rcases List.mem_cons.mp ((hiff q).mpr (List.mem_cons_self _ _)) with he' | hm'
          · exact he'.symm
          · exact (keyLt_irrefl_elim (keyLt_trans (hhead₁ _ hm') (hhead₂ _ hm))).elim
      subst hpq
      have htiff : ∀ r, r ∈ t₁ ↔ r ∈ t₂ := by
        intro r
        constructor
        · intro hr
          rcases List.mem_cons.mp ((hiff r).mp (List.mem_cons_of_mem _ hr)) with he | hm
          · exact (keyLt_irrefl_elim (he ▸ hhead₁ _ hr)).elim
          · exact hm
        · intro hr
          rcases List.mem_cons.mp ((hiff r).mpr (List.mem_cons_of_mem _ hr)) with he | hm
          · exact (keyLt_irrefl_elim (he ▸ hhead₂ _ hr)).elim
          · exact hm
      rw [ih htail₁ htail₂ htiff]

theorem sortedKeys_filter_eq {l : List (String × String)} (hs : SortedKeys l)
    {n m : String} (h : (n, m) ∈ l) :
    l.filter (fun p => p.1 == n) = [(n, m)] := by
  induction l with
  | nil => simp at h
  | cons q t ihl =>
    obtain ⟨k, v⟩ := q
    rcases List.pairwise_cons.mp hs with ⟨hhead, htail⟩
    by_cases hk : k = n
    · subst hk
      have hm : m = v := by
        rcases List.mem_cons.mp h with he | hmem
        · exact (congrArg Prod.snd he)
        · exact (keyLt_irrefl_elim (hhead (k, m) hmem)).elim
      subst hm
      have hnone : t.filter (fun p => p.1 == k) = [] := by
        apply List.filter_eq_nil_iff.mpr
        intro p hp
        have := hhead _ hp
        simp only [beq_iff_eq]
        intro hpk
        exact keyLt_irrefl_elim (hpk ▸ this)
      simp [hnone]
    · have hmem : (n, m) ∈ t := by
        rcases List.mem_cons.mp h with he | hmem
        · exact absurd (congrArg Prod.fst he).symm hk
        · exact hmem
      have : ((k, v) :: t).filter (fun p => p.1 == n) = t.filter (fun p => p.1 == n) := by
        simp [List.filter_cons, hk]
      rw [this, ihl htail hmem]

/-! ## Lemmas about the compilation loops -/

theorem compile_contracts_ok {units : List MasmUnit} :
    ∀ (registered artifacts : List String),
      (∀ i (h : i < units.length),
        assembleUnit (registered ++ unitPaths (units.take i)) (units.get ⟨i, h⟩) =
          Except.ok ()) →
      compile_contracts registered artifacts units =
        { err := none, registered := registered ++ unitPaths units,
          artifacts := artifacts ++ unitArtifacts units } := by
  induction units with
  | nil =>
    intro r a _
    simp [compile_contracts, unitPaths, unitArtifacts]
  | cons u rest ih =>
    intro r a hok
    have h0 : assembleUnit r u = Except.ok () := by
      have := hok 0 (by simp)
      simpa [unitPaths] using this
    simp only [compile_contracts, h0]
    have hrest : ∀ i (h : i < rest.length),
        assembleUnit ((r ++ [lendingPath u.name]) ++ unitPaths (rest.take i))
          (rest.get ⟨i, h⟩) = Except.ok () := by
      intro i h
      have := hok (i + 1) (Nat.succ_lt_succ h)
      simpa [unitPaths, List.take_succ_cons, List.append_assoc] using this
    rw [ih _ _ hrest]
    simp [unitPaths, unitArtifacts, List.append_assoc]

theorem compile_contracts_err {units : List MasmUnit} :
    ∀ (registered artifacts : List String) {i : Nat} (hi : i < units.length) {e : String},
      (∀ j (hj : j < units.length), j < i →
        assembleUnit (registered ++ unitPaths (units.take j)) (units.get ⟨j, hj⟩) =
          Except.ok ()) →
      assembleUnit (registered ++ unitPaths (units.take i)) (units.get ⟨i, hi⟩) =
        Except.error e →
      compile_contracts registered artifacts units =
        { err := some e, registered := registered ++ unitPaths (units.take i),
          artifacts := artifacts ++ unitArtifacts (units.take i) } := by
  induction units with
  | nil => intro r a i hi e _ _; exact absurd hi (Nat.not_lt_zero i)
  | cons u rest ih =>
    intro r a i hi e hok hbad
    cases i with
    | zero =>
      have hbad0 : assembleUnit r u = Except.error e := by
        simpa [unitPaths] using hbad
      simp [compile_contracts, hbad0, unitPaths, unitArtifacts]
    | succ i =>
      have h0 : assembleUnit r u = Except.ok () := by
        have := hok 0 (Nat.lt_trans (Nat.succ_pos i) hi) (Nat.succ_pos i)
        simpa [unitPaths] using this
      simp only [compile_contracts, h0]
      have hok' : ∀ j (hj : j < rest.length), j < i →
          assembleUnit ((r ++ [lendingPath u.name]) ++ unitPaths (rest.take j))
            (rest.get ⟨j, hj⟩) = Except.ok () := by
        intro j hj hji
        have := hok (j + 1) (Nat.succ_lt_succ hj) (Nat.succ_lt_succ hji)
        simpa [unitPaths, List.take_succ_cons, List.append_assoc] using this
      have hbad' :
          assembleUnit ((r ++ [lendingPath u.name]) ++ unitPaths (rest.take i))
            (rest.get ⟨i, Nat.lt_of_succ_lt_succ hi⟩) = Except.error e := by
        simpa [unitPaths, List.take_succ_cons, List.append_assoc] using hbad
      rw [ih _ _ (Nat.lt_of_succ_lt_succ hi) hok' hbad']
      simp [unitPaths, unitArtifacts, List.append_assoc]

theorem assembleUnit_error_mentions_unit {registered : List String} {u : MasmUnit}
    {e : String} (h : assembleUnit registered u = Except.error e) :
    ∃ pre, e = pre ++ lendingPath u.name := by
  by_cases hp : u.parses = false
  · refine ⟨"failed to parse library module ", ?_⟩
    simp only [assembleUnit, hp, if_pos, Except.error.injEq] at h
    exact h.symm
  · simp only [assembleUnit, hp, if_false] at h
    by_cases hall : u.refs.all (fun r => registered.contains r) = true
    · rw [if_pos hall] at h
      cases h
    · rw [if_neg hall] at h
      refine ⟨"undefined module reference in ", ?_⟩
      exact (Except.error.injEq _ _ |>.mp h).symm

/-! ## Claim theorems: library compilation -/

/-- C4: library units are compiled one at a time in enumeration order; each
compiled library is registered (appended, never reordered or removed) into
the assembler context before the next unit is compiled, so unit `i` resolves
against exactly the base toolchain plus the libraries of units `0..i-1`; and
a unit that references the library of a later unit — not yet registered when
the unit is compiled — fails the loop at that unit. -/
theorem C4_registration_append_only (base : List String) (units : List MasmUnit) :
    ((∀ i (h : i < units.length),
        assembleUnit (base ++ unitPaths (units.take i)) (units.get ⟨i, h⟩) =
          Except.ok ()) →
      compile_contracts base [] units =
        { err := none, registered := base ++ unitPaths units,
          artifacts := unitArtifacts units }) ∧
    (∀ i j (hi : i < units.length) (hj : j < units.length), i < j →
      (∀ l (hl : l < units.length), l < i →
        assembleUnit (base ++ unitPaths (units.take l)) (units.get ⟨l, hl⟩) =
          Except.ok ()) →
      (units.get ⟨i, hi⟩).parses = true →
      lendingPath (units.get ⟨j, hj⟩).name ∈ (units.get ⟨i, hi⟩).refs →
      lendingPath (units.get ⟨j, hj⟩).name ∉ base ++ unitPaths (units.take i) →
      ∃ e, compile_contracts base [] units =
        { err := some e, registered := base ++ unitPaths (units.take i),
          artifacts := unitArtifacts (units.take i) }) := by
  constructor
  · intro hok
    have := compile_contracts_ok base [] hok
    simpa using this
  · intro i j hi hj hij hok hparses href hnot
    have hall : (units.get ⟨i, hi⟩).refs.all
        (fun r => (base ++ unitPaths (units.take i)).contains r) = false := by
      rcases Bool.eq_false_or_eq_true
        ((units.get ⟨i, hi⟩).refs.all (fun r => (base ++ unitPaths (units.take i)).contains r))
        with ht | hf
      · exfalso
        have := List.all_eq_true.mp ht _ href
        exact hnot (List.elem_iff.mp (by simpa using this))
      · exact hf
    have hbad : assembleUnit (base ++ unitPaths (units.take i)) (units.get ⟨i, hi⟩) =
        Except.error ("undefined module reference in " ++
          lendingPath (units.get ⟨i, hi⟩).name) := by
      simp only [assembleUnit, hparses, Bool.true_eq_false, if_false, hall,
        Bool.false_eq_true]
    refine ⟨"undefined module reference in " ++ lendingPath (units.get ⟨i, hi⟩).name, ?_⟩
    have := compile_contracts_err base [] hi hok hbad
    simpa using this

/-- Witness for C4: a two-unit chain compiles in order and registers both
libraries; swapping the order makes the first unit reference the
not-yet-registered second library and fail. -/
theorem C4_registration_append_only_witness :
    compile_contracts [] []
      [{ name := "a", parses := true, refs := [] },
       { name := "b", parses := true, refs := ["lending::a"] }] =
      { err := none, registered := ["lending::a", "lending::b"],
        artifacts := ["a.masl", "b.masl"] } ∧
    ∃ e, compile_contracts [] []
      [{ name := "b", parses := true, refs := ["lending::a"] },
       { name := "a", parses := true, refs := [] }] =
      { err := some e, registered := [], artifacts := [] } := by
  constructor
  · have h := (C4_registration_append_only []
      [{ name := "a", parses := true, refs := [] },
       { name := "b", parses := true, refs := ["lending::a"] }]).1 ?_
    · simpa [unitPaths, unitArtifacts, lendingPath] using h
    · intro i h
      have h2 : i < 2 := by simpa using h
      interval_cases i <;> rfl
  · obtain ⟨e, he⟩ := (C4_registration_append_only []
      [{ name := "b", parses := true, refs := ["lending::a"] },
       { name := "a", parses := true, refs := [] }]).2 0 1
      (by simp) (by simp) (by omega)
      (fun l hl hl0 => absurd hl0 (by omega))
      (by rfl) (by simp [lendingPath]) (by simp [unitPaths])
    exact ⟨e, by simpa [unitPaths, unitArtifacts] using he⟩

/-- C5: if the unit at index `i` fails to parse or assemble while all earlier
units succeeded, the loop aborts with that unit's diagnostic (which names the
unit's namespaced path), the registered libraries and written artifacts are
exactly those of the units before `i`, and no artifact exists for any unit
enumerated at or after `i` (whose artifact name is not already taken by an
earlier unit). -/
theorem C5_fail_fast_no_later_artifacts (base : List String) (units : List MasmUnit)
    (i : Nat) (hi : i < units.length) (e : String)
    (hok : ∀ j (hj : j < units.length), j < i →
      assembleUnit (base ++ unitPaths (units.take j)) (units.get ⟨j, hj⟩) =
        Except.ok ())
    (hbad : assembleUnit (base ++ unitPaths (units.take i)) (units.get ⟨i, hi⟩) =
      Except.error e) :
    compile_contracts base [] units =
      { err := some e, registered := base ++ unitPaths (units.take i),
        artifacts := unitArtifacts (units.take i) } ∧
    (∃ pre, e = pre ++ lendingPath (units.get ⟨i, hi⟩).name) ∧
    ∀ j (hj : j < units.length), i ≤ j →
      (units.get ⟨j, hj⟩).name ++ ".masl" ∉ unitArtifacts (units.take i) →
      (units.get ⟨j, hj⟩).name ++ ".masl" ∉
        (compile_contracts base [] units).artifacts := by
  have hrun := compile_contracts_err base [] hi hok hbad
  refine ⟨by simpa using hrun, assembleUnit_error_mentions_unit hbad, ?_⟩
  intro j hj _ hnot
  rw [hrun]
  simpa using hnot

/-- Witness for C5: with three units of which the second fails to parse, only
the first unit's artifact is produced and no artifact exists for the third. -/
theorem C5_fail_fast_no_later_artifacts_witness :
    compile_contracts [] []
      [{ name := "a", parses := true, refs := [] },
       { name := "bad", parses := false, refs := [] },
       { name := "c", parses := true, refs := [] }] =
      { err := some ("failed to parse library module lending::bad"),
        registered := ["lending::a"], artifacts := ["a.masl"] } ∧
    ("c.masl" : String) ∉ (compile_contracts [] []
      [{ name := "a", parses := true, refs := [] },
       { name := "bad", parses := false, refs := [] },
       { name := "c", parses := true, refs := [] }]).artifacts := by
  have h := C5_fail_fast_no_later_artifacts []
    [{ name := "a", parses := true, refs := [] },
     { name := "bad", parses := false, refs := [] },
     { name := "c", parses := true, refs := [] }] 1 (by simp)
    ("failed to parse library module lending::bad")
    (by
      intro j hj hj1
      interval_cases j
      rfl)
    (by rfl)
  refine ⟨?_, ?_⟩
  · have h1 := h.1
    simpa [unitPaths, unitArtifacts, lendingPath] using h1
  · have h3 := h.2.2 2 (by simp) (by omega) (by simp [unitArtifacts])
    simpa [unitArtifacts] using h3

/-! ## Claim theorems: the error registry -/

/-- C1: if two extracted error declarations share the same name `ERR_<NAME>`
but carry different (whitespace-trimmed) messages, error-registry generation
fails the entire build with an error message naming the conflicting constant,
and no generated error-constant file is written (the `Except.error` result
models the `?`-return that aborts `generate_error_constants` before its
`fs::write`). -/
theorem C1_conflict_fails_build (files : List String)
    (hconf : ∃ p ∈ declsOfFiles files, ∃ q ∈ declsOfFiles files, p.1 = q.1 ∧ p.2 ≠ q.2) :
    ∃ n m₁ m₂, m₁ ≠ m₂ ∧ (n, m₁) ∈ declsOfFiles files ∧ (n, m₂) ∈ declsOfFiles files ∧
      generate_error_constants files = Except.error (conflictMsg n) ∧
      ∀ out, generate_error_constants files ≠ Except.ok out := by
  have hnil : SortedKeys ([] : List (String × String)) := List.Pairwise.nil
  cases hcol : collectErrors [] files with
  | ok res =>
    exfalso
    obtain ⟨hres, hmem⟩ := collectErrors_ok_mem hnil hcol
    obtain ⟨p, hp, q, hq, hk, hv⟩ := hconf
    have hp' : p ∈ res := (hmem p).mpr (Or.inr hp)
    have hq' : q ∈ res := (hmem q).mpr (Or.inr hq)
    have hp'' : (p.1, p.2) ∈ res := hp'
    have hq'' : (p.1, q.2) ∈ res := by
      have : q = (p.1, q.2) := Prod.ext hk.symm rfl
      exact this ▸ hq'
    exact hv (sortedKeys_unique hres hp'' hq'')
  | error e =>
    obtain ⟨n, m₁, m₂, hne, he, hm₁, hm₂⟩ := collectErrors_error_shape hnil hcol
    have hm₁' : (n, m₁) ∈ declsOfFiles files := by
      rcases hm₁ with h' | h'
      · simp at h'
      · exact h'
    refine ⟨n, m₁, m₂, hne, hm₁', hm₂, ?_, ?_⟩
    · simp only [generate_error_constants, hcol, he]
    · intro out
      simp only [generate_error_constants, hcol]
      exact fun h => by cases h

/-- Witness for C1 at a concrete conflicting input. -/
theorem C1_conflict_fails_build_witness :
    ∃ n m₁ m₂, m₁ ≠ m₂ ∧
      (n, m₁) ∈ declsOfFiles ["const.ERR_A=\"x\"", "const.ERR_A=\"y\""] ∧
      (n, m₂) ∈ declsOfFiles ["const.ERR_A=\"x\"", "const.ERR_A=\"y\""] ∧
      generate_error_constants ["const.ERR_A=\"x\"", "const.ERR_A=\"y\""] =
        Except.error (conflictMsg n) ∧
      ∀ out, generate_error_constants ["const.ERR_A=\"x\"", "const.ERR_A=\"y\""] ≠
        Except.ok out :=
  C1_conflict_fails_build ["const.ERR_A=\"x\"", "const.ERR_A=\"y\""]
    ⟨("A", "x"), by decide, ("A", "y"), by decide, rfl, by decide⟩

/-- C2 counterexample: the generated text does *not* begin with the
machine-generated header comment — a `use` import item precedes it, so the
claim's "nothing precedes it" fails already on the empty registry. -/
theorem C2_header_not_first_counterexample :
    (generate_error_file []).data.take 4 = ("use ").data ∧
    ¬ (generate_error_file []).data.take 2 = ("//").data := by
  exact ⟨rfl, by decide⟩

/-- C2 (amended): the generated error-registry text consists of an import of
the error type followed by the header comment marking the file as
machine-generated, followed by exactly one block per unique error name in
ascending name order, each block a documentation comment with the literal
message and a public constant `ERR_<NAME>` bound to a typed wrapper carrying
that message. -/
theorem C2_generated_text_structure (files : List String) (errs : List (String × String))
    (h : collectErrors [] files = Except.ok errs) :
    generate_error_constants files =
      Except.ok (errorFileHeader ++ String.join (errs.map errorBlock)) ∧
    SortedKeys errs ∧ (∀ p, p ∈ errs ↔ p ∈ declsOfFiles files) := by
  obtain ⟨hres, hmem⟩ := collectErrors_ok_mem List.Pairwise.nil h
  refine ⟨?_, hres, fun p => by rw [hmem p]; simp⟩
  simp only [generate_error_constants, h, generate_error_file]

/-- Witness for C2's amended theorem at a concrete input. -/
theorem C2_generated_text_structure_witness :
    generate_error_constants ["const.ERR_B=\"second\"\nconst.ERR_A=\"first\""] =
      Except.ok (errorFileHeader ++
        String.join ([("A", "first"), ("B", "second")].map errorBlock)) ∧
    SortedKeys [("A", "first"), ("B", "second")] ∧
    (∀ p, p ∈ [("A", "first"), ("B", "second")] ↔
      p ∈ declsOfFiles ["const.ERR_B=\"second\"\nconst.ERR_A=\"first\""]) :=
  C2_generated_text_structure ["const.ERR_B=\"second\"\nconst.ERR_A=\"first\""]
    [("A", "first"), ("B", "second")] (by rfl)

/-- C3: when every repetition of a name carries the identical trimmed
message, registry generation succeeds and the registry holds exactly one
entry per declared name, bound to that message — duplicate identical
declarations are idempotent. -/
theorem C3_duplicate_decls_idempotent (files : List String)
    (hcons : ∀ p ∈ declsOfFiles files, ∀ q ∈ declsOfFiles files, p.1 = q.1 → p.2 = q.2) :
    ∃ errs, collectErrors [] files = Except.ok errs ∧
      generate_error_constants files = Except.ok (generate_error_file errs) ∧
      (∀ p, p ∈ errs ↔ p ∈ declsOfFiles files) ∧
      ∀ n m, (n, m) ∈ declsOfFiles files →
        errs.filter (fun p => p.1 == n) = [(n, m)] := by
  have hD : ConsistentIn (declsOfFiles files) := hcons
  obtain ⟨errs, herrs⟩ :=
    collectErrors_consistent_ok (declsOfFiles files) hD List.Pairwise.nil (by simp)
      (fun p hp => hp)
  obtain ⟨hres, hmem⟩ := collectErrors_ok_mem List.Pairwise.nil herrs
  refine ⟨errs, herrs, ?_, fun p => by rw [hmem p]; simp, ?_⟩
  · simp only [generate_error_constants, herrs]
  · intro n m hnm
    exact sortedKeys_filter_eq hres ((hmem (n, m)).mpr (Or.inr hnm))

/-- Witness for C3: two files with the identical declaration produce a
one-entry registry. -/
theorem C3_duplicate_decls_idempotent_witness :
    ∃ errs,
      collectErrors []
        ["const.ERR_FOO=\"insufficient funds\"", "const.ERR_FOO=\"insufficient funds\""] =
        Except.ok errs ∧
      generate_error_constants
        ["const.ERR_FOO=\"insufficient funds\"", "const.ERR_FOO=\"insufficient funds\""] =
        Except.ok (generate_error_file errs) ∧
      (∀ p, p ∈ errs ↔ p ∈ declsOfFiles
        ["const.ERR_FOO=\"insufficient funds\"", "const.ERR_FOO=\"insufficient funds\""]) ∧
      ∀ n m, (n, m) ∈ declsOfFiles
          ["const.ERR_FOO=\"insufficient funds\"", "const.ERR_FOO=\"insufficient funds\""] →
        errs.filter (fun p => p.1 == n) = [(n, m)] :=
  C3_duplicate_decls_idempotent
    ["const.ERR_FOO=\"insufficient funds\"", "const.ERR_FOO=\"insufficient funds\""]
    (by decide)

/-- C7: the generated registry text is a pure function of the *set* of
extracted trimmed declarations — two file collections with the same
declaration members yield the identical error map and byte-identical
generated text (determinism of two runs on identical source is the special
case `files₁ = files₂`). -/
theorem C7_registry_deterministic (files₁ files₂ : List String)
    (m₁ m₂ : List (String × String))
    (h₁ : collectErrors [] files₁ = Except.ok m₁)
    (h₂ : collectErrors [] files₂ = Except.ok m₂)
    (hset : ∀ p, p ∈ declsOfFiles files₁ ↔ p ∈ declsOfFiles files₂) :
    m₁ = m₂ ∧ generate_error_constants files₁ = generate_error_constants files₂ := by
  obtain ⟨hs₁, hmem₁⟩ := collectErrors_ok_mem List.Pairwise.nil h₁
  obtain ⟨hs₂, hmem₂⟩ := collectErrors_ok_mem List.Pairwise.nil h₂
  have heq : m₁ = m₂ := by
    apply sortedKeys_ext hs₁ hs₂
    intro p
    rw [hmem₁ p, hmem₂ p]
    simp [hset p]
  refine ⟨heq, ?_⟩
  simp only [generate_error_constants, h₁, h₂, heq]

/-- Witness for C7: the same two declarations encountered in either file
order generate byte-identical output. -/
theorem C7_registry_deterministic_witness :
    [("A", "x"), ("B", "y")] = [("A", "x"), ("B", "y")] ∧
    generate_error_constants ["const.ERR_A=\"x\"", "const.ERR_B=\"y\""] =
      generate_error_constants ["const.ERR_B=\"y\"", "const.ERR_A=\"x\""] :=
  C7_registry_deterministic
    ["const.ERR_A=\"x\"", "const.ERR_B=\"y\""] ["const.ERR_B=\"y\"", "const.ERR_A=\"x\""]
    [("A", "x"), ("B", "y")] [("A", "x"), ("B", "y")] (by rfl) (by rfl)
    (by
      intro p
      have e₁ : declsOfFiles ["const.ERR_A=\"x\"", "const.ERR_B=\"y\""] =
          [("A", "x"), ("B", "y")] := rfl
      have e₂ : declsOfFiles ["const.ERR_B=\"y\"", "const.ERR_A=\"x\""] =
          [("B", "y"), ("A", "x")] := rfl
      rw [e₁, e₂]
      simp only [List.mem_cons, List.not_mem_nil, or_false]
      exact or_comm)

/-- C10: the regex matches only when `=` is immediately followed by the
opening quote — `const.ERR_X = "msg"` is silently not extracted and takes no
part in conflict detection — while whitespace captured inside the name group
(before `=`) or the message group is trimmed before insertion. -/
theorem C10_regex_spacing_and_trimming :
    extractCaptures ("const.ERR_X = \"msg\"") = [] ∧
    extract_errors [] ("const.ERR_X = \"msg\"") = Except.ok [] ∧
    extract_errors [("X", "other")] ("const.ERR_X = \"msg\"") =
      Except.ok [("X", "other")] ∧
    extractCaptures ("const.ERR_FOO =\" padded message \"") =
      [("FOO ", " padded message ")] ∧
    extract_errors [] ("const.ERR_FOO =\" padded message \"") =
      Except.ok [("FOO", "padded message")] :=
  ⟨rfl, rfl, rfl, rfl, rfl⟩

/-! ## Claim theorems: the build entry point -/

/-- C6 counterexample: with the ASM root present, the contracts directory
absent and the note-scripts directory present and holding a perfectly
compilable unit, the build produces *no* program artifacts — note-script
compilation is nested inside the contracts branch of `main` — refuting the
claim that program compilation of an existing note-scripts subdirectory
still runs.  The second conjunct shows the skipped stage would have produced
an artifact had it run. -/
theorem C6_note_scripts_skipped_counterexample :
    mainBuild
      { srcExists := true, contractsExist := false, noteScriptsExist := true,
        base := [], contractUnits := [], contractFileTexts := [],
        noteScriptUnits := [{ name := "p2id", parses := true, refs := [] }] } =
      { failed := false, libraryArtifacts := [], programArtifacts := [],
        errorRegistry := none } ∧
    compile_note_scripts [] [] [{ name := "p2id", parses := true, refs := [] }] =
      { err := none, artifacts := ["p2id.masb"] } := by
  exact ⟨rfl, rfl⟩

/-- C6 (amended): when the ASM source root exists — if the contracts
subdirectory is absent, library compilation, program compilation and
error-registry generation are all skipped (note scripts are compiled only
when contracts exist, since program compilation consumes the assembler
produced by library compilation) and the build does not fail; if the
note-scripts subdirectory is absent but contracts exist, only program
compilation is skipped — the library artifacts and the error registry are
still produced and the build does not fail. -/
theorem C6_skip_behavior (w : BuildWorld) :
    (w.srcExists = true → w.contractsExist = false →
      mainBuild w =
        { failed := false, libraryArtifacts := [],
          programArtifacts := [], errorRegistry := none }) ∧
    (w.srcExists = true → w.contractsExist = true → w.noteScriptsExist = false →
      (compile_contracts w.base [] w.contractUnits).err = none →
      (∀ p ∈ declsOfFiles w.contractFileTexts, ∀ q ∈ declsOfFiles w.contractFileTexts,
        p.1 = q.1 → p.2 = q.2) →
      ∃ content, mainBuild w =
        { failed := false,
          libraryArtifacts := (compile_contracts w.base [] w.contractUnits).artifacts,
          programArtifacts := [], errorRegistry := some content }) := by
  constructor
  · intro h1 h2
    simp [mainBuild, h1, h2]
  · intro h1 h2 h3 h4 hcons
    obtain ⟨errs, herrs⟩ :=
      collectErrors_consistent_ok (declsOfFiles w.contractFileTexts) hcons
        List.Pairwise.nil (by simp) (fun p hp => hp)
    refine ⟨generate_error_file errs, ?_⟩
    simp [mainBuild, h1, h2, h3, h4, CAN_WRITE_TO_SRC, generate_error_constants, herrs]

/-- Witness for C6's amended theorem at concrete worlds for both branches. -/
theorem C6_skip_behavior_witness :
    mainBuild
      { srcExists := true, contractsExist := false, noteScriptsExist := true,
        base := [], contractUnits := [],
        contractFileTexts := [], noteScriptUnits := [] } =
      { failed := false, libraryArtifacts := [], programArtifacts := [],
        errorRegistry := none } ∧
    ∃ content, mainBuild
      { srcExists := true, contractsExist := true, noteScriptsExist := false,
        base := [], contractUnits := [{ name := "pool", parses := true, refs := [] }],
        contractFileTexts := ["const.ERR_P=\"pool error\""], noteScriptUnits := [] } =
      { failed := false,
        libraryArtifacts := (compile_contracts [] []
          [{ name := "pool", parses := true, refs := [] }]).artifacts,
        programArtifacts := [], errorRegistry := some content } := by
  constructor
  · exact (C6_skip_behavior
      { srcExists := true, contractsExist := false, noteScriptsExist := true,
        base := [], contractUnits := [],
        contractFileTexts := [], noteScriptUnits := [] }).1 rfl rfl
  · exact (C6_skip_behavior
      { srcExists := true, contractsExist := true, noteScriptsExist := false,
        base := [], contractUnits := [{ name := "pool", parses := true, refs := [] }],
        contractFileTexts := ["const.ERR_P=\"pool error\""],
        noteScriptUnits := [] }).2 rfl rfl rfl (by rfl) (by decide)

/-! ## Claim theorems: artifact serialization -/

theorem decodeString_encodeString (s : String) (rest : List Nat) :
    decodeString (encodeString s ++ rest) = some (s, rest) := by
  have hlen : (s.data.map Char.toNat).length = s.data.length := List.length_map _ _
  simp only [encodeString, List.cons_append, decodeString]
  rw [if_pos (by rw [List.length_append, hlen]; omega)]
  have htake : ((s.data.map Char.toNat) ++ rest).take s.data.length =
      s.data.map Char.toNat := by
    rw [← hlen]
    exact List.take_left _ _
  have hdrop : ((s.data.map Char.toNat) ++ rest).drop s.data.length = rest := by
    rw [← hlen]
    exact List.drop_left _ _
  rw [htake, hdrop, List.map_map]
  have hmapid : ((fun b => Char.ofNat b) ∘ Char.toNat) = (id : Char → Char) := by
    funext c
    exact Char.ofNat_toNat c
  rw [hmapid, List.map_id]

theorem decodeString_encodeString_nil (s : String) :
    decodeString (encodeString s) = some (s, []) := by
  have := decodeString_encodeString s []
  simpa using this

theorem deserializeArtifact_serializeArtifact (a : Artifact) :
    deserializeArtifact (serializeArtifact a) = some a := by
  obtain ⟨kind, name, path, code⟩ := a
  cases kind <;>
    simp [serializeArtifact, deserializeArtifact, encodeKind, decodeKind,
      List.append_assoc, decodeString_encodeString, decodeString_encodeString_nil]

/-- C8: for every compiled library or program artifact, deserializing its
serialized binary succeeds and re-serializing the result yields the
identical bytes — the serialization round-trip is the identity on produced
artifacts. -/
theorem C8_artifact_roundtrip (a : Artifact) :
    ∃ a', deserializeArtifact (serializeArtifact a) = some a' ∧
      serializeArtifact a' = serializeArtifact a :=
  ⟨a, deserializeArtifact_serializeArtifact a, rfl⟩

/-! ## Claim theorems: directory enumeration -/

theorem get_masm_files_sub {entries : List FsTree} {p : String × String}
    (hp : p ∈ get_masm_files entries) : FsTree.file p.1 p.2 ∈ entries := by
  obtain ⟨t, ht, hft⟩ := List.mem_filterMap.mp hp
  cases t with
  | file n c =>
    dsimp only at hft
    by_cases hm : is_masm_file n = true
    · rw [if_pos hm] at hft
      cases Option.some.inj hft
      exact ht
    · rw [if_neg hm] at hft
      cases hft
  | dir n es => cases hft

theorem mem_walkMasmTextsList_of_mem {entries : List FsTree} {t : FsTree}
    (ht : t ∈ entries) {x : String} (hx : x ∈ walkMasmTexts t) :
    x ∈ walkMasmTextsList entries := by
  induction entries with
  | nil => simp at ht
  | cons a as ih =>
    rcases List.mem_cons.mp ht with he | hm
    · subst he
      exact List.mem_append_left _ hx
    · exact List.mem_append_right _ (ih hm)

theorem trimmedDecls_subset_declsOfFiles {files : List String} {f : String}
    (hf : f ∈ files) : ∀ p ∈ trimmedDecls f, p ∈ declsOfFiles files := by
  intro p hp
  simp only [declsOfFiles, List.mem_flatten]
  exact ⟨trimmedDecls f, List.mem_map_of_mem _ hf, hp⟩

/-- C9: `get_masm_files` enumerates only files lying directly in the listed
directory (it never returns anything from a nested subdirectory), whereas
the error-registry walk visits MASM files at any depth; so a `.masm` file
inside a nested subdirectory of the contracts directory contributes its
error declarations to the generated registry but is never among the files
compiled into artifacts. -/
theorem C9_nested_scanned_not_compiled
    (rootName subName fn fc : String) (entries subEntries : List FsTree)
    (hsub : FsTree.dir subName subEntries ∈ entries)
    (hfile : FsTree.file fn fc ∈ subEntries)
    (hmasm : is_masm_file fn = true)
    (hnodirect : FsTree.file fn fc ∉ entries) :
    (∀ p ∈ get_masm_files entries, FsTree.file p.1 p.2 ∈ entries) ∧
    fc ∈ walkMasmTexts (FsTree.dir rootName entries) ∧
    (∀ p ∈ trimmedDecls fc,
      p ∈ declsOfFiles (walkMasmTexts (FsTree.dir rootName entries))) ∧
    (fn, fc) ∉ get_masm_files entries := by
  have hwalk : fc ∈ walkMasmTexts (FsTree.dir rootName entries) := by
    have hfcfile : fc ∈ walkMasmTexts (FsTree.file fn fc) := by
      simp [walkMasmTexts, hmasm]
    have hsubwalk : fc ∈ walkMasmTexts (FsTree.dir subName subEntries) :=
      mem_walkMasmTextsList_of_mem hfile hfcfile
    exact mem_walkMasmTextsList_of_mem hsub hsubwalk
  refine ⟨fun p hp => get_masm_files_sub hp, hwalk,
    fun p hp => trimmedDecls_subset_declsOfFiles hwalk p hp, fun hmem => ?_⟩
  exact hnodirect (get_masm_files_sub hmem)

/-- Witness for C9: a concrete tree whose nested `.masm` file feeds the
registry but is absent from the compiled file listing. -/
theorem C9_nested_scanned_not_compiled_witness :
    (∀ p ∈ get_masm_files
        [FsTree.dir ("nested") [FsTree.file ("deep.masm") ("const.ERR_D=\"deep\"")],
         FsTree.file ("top.masm") ("const.ERR_T=\"top\"")],
      FsTree.file p.1 p.2 ∈
        [FsTree.dir ("nested") [FsTree.file ("deep.masm") ("const.ERR_D=\"deep\"")],
         FsTree.file ("top.masm") ("const.ERR_T=\"top\"")]) ∧
    ("const.ERR_D=\"deep\"" : String) ∈ walkMasmTexts (FsTree.dir ("contracts")
      [FsTree.dir ("nested") [FsTree.file ("deep.masm") ("const.ERR_D=\"deep\"")],
       FsTree.file ("top.masm") ("const.ERR_T=\"top\"")]) ∧
    (∀ p ∈ trimmedDecls ("const.ERR_D=\"deep\""),
      p ∈ declsOfFiles (walkMasmTexts (FsTree.dir ("contracts")
        [FsTree.dir ("nested") [FsTree.file ("deep.masm") ("const.ERR_D=\"deep\"")],
         FsTree.file ("top.masm") ("const.ERR_T=\"top\"")]))) ∧
    (("deep.masm", "const.ERR_D=\"deep\"") : String × String) ∉ get_masm_files
      [FsTree.dir ("nested") [FsTree.file ("deep.masm") ("const.ERR_D=\"deep\"")],
       FsTree.file ("top.masm") ("const.ERR_T=\"top\"")] := by
  exact C9_nested_scanned_not_compiled ("contracts") ("nested") ("deep.masm")
    ("const.ERR_D=\"deep\"")
    [FsTree.dir ("nested") [FsTree.file ("deep.masm") ("const.ERR_D=\"deep\"")],
     FsTree.file ("top.masm") ("const.ERR_T=\"top\"")]
    [FsTree.file ("deep.masm") ("const.ERR_D=\"deep\"")]
    (List.mem_cons_self _ _) (List.mem_cons_self _ _) (by rfl) (by simp)

end LendingBuild
